import Mathlib

/-!
Verification of the planner / orchestrator / mailbox components of the
mcp-tutorial repository, as a shallow embedding in Lean.

The embedding models:
* `PlannerAgent` (`09-front-back-agent/agent/planner.ts`):
  `analyzeRequirements`, `determineNeededAgents`, `createTasks`,
  `determineExecutionOrder`, `createExecutionPlan`.
* `OrchestratorV2` (`agent/orchestrator-v2.ts`): `executeTasks`, `executeAgent`.
* `OrchestratorAgent` mailbox drain (`agent/orchestrator.ts`):
  `processMailboxRequest`, `processMailboxRequests`.

Conventions of the embedding:
* JavaScript strings are modelled as Lean `String` / `List Char`; the
  whitespace class of `\s` and of `String.prototype.trim` is modelled by its
  ASCII members (all inputs of interest are ASCII).
* `Date.now()` and `new Date().toISOString()` are modelled as explicit
  parameters (`now : Nat`, `nowISO : String`): the code reads the ambient
  clock, the embedding passes the reading in.
* Fallible operations (`JSON.parse`, a worker `execute`/`applyApiChange`
  that may throw) are modelled with `Except String`.
* File-system effects of the mailbox drain (write an event file, rename the
  request into the processed directory) are recorded in a `RequestEffects`
  result instead of performed.
-/

/-! ## Character-level utilities (JS string semantics) -/

/-- ASCII members of the JavaScript `\s` class (also used by `trim`). -/
def isJsSpace (c : Char) : Bool :=
  c = ' ' || c = '\t' || c = '\n' || c = '\r' ||
  c = Char.ofNat 11 || c = Char.ofNat 12

/-- Line terminators, which JavaScript `.` does not match. -/
def isLineTerm (c : Char) : Bool :=
  c = '\n' || c = '\r'

/-- `leadsWith needle hay`: `hay` starts with `needle`. -/
def leadsWith : List Char → List Char → Bool
  | [], _ => true
  | _ :: _, [] => false
  | a :: as, b :: bs => a == b && leadsWith as bs

/-- `hasSubSeq needle hay`: `needle` occurs contiguously inside `hay`
(JS `String.prototype.includes` / a literal regex test). -/
def hasSubSeq (needle : List Char) : List Char → Bool
  | [] => leadsWith needle []
  | b :: bs => leadsWith needle (b :: bs) || hasSubSeq needle bs

/-- `String.prototype.toLowerCase` (character-wise). -/
def lowerChars (l : List Char) : List Char := l.map Char.toLower

/-- Case-insensitive regex test for a single literal pattern, i.e.
JavaScript `/pat/i.test s` where `pat` is given in lower case. -/
def regexTestCI (pat : String) (s : String) : Bool :=
  hasSubSeq pat.data (lowerChars s.data)

/-- `Array.prototype.join(' ')`. -/
def joinSpace : List (List Char) → List Char
  | [] => []
  | [p] => p
  | p :: ps => p ++ ' ' :: joinSpace ps

/-- `String.prototype.trim` (ASCII whitespace). -/
def jsTrim (l : List Char) : List Char :=
  ((l.dropWhile isJsSpace).reverse.dropWhile isJsSpace).reverse

/-! ## The bullet-item regex of `PlannerAgent.analyzeRequirements`

`this.instructions.match(/(?:^|\n)(?:\d+\.|\-|\*)\s*(.+)/g)` is embedded as a
scanner producing the list of matched substrings, with JavaScript semantics:
leftmost match first, the next search resumes at the end of the previous
match, alternatives are tried left to right, `\d+`/`\s*`/`.+` are greedy with
backtracking, and `.` does not match line terminators. -/

/-- Match `(?:\d+\.|\-|\*)` at the head of `s`; returns consumed chars and
the rest.  A maximal digit run must be followed by `'.'`; since no digit can
also start the `-`/`*` alternatives, no further backtracking arises. -/
def matchMarker : List Char → Option (List Char × List Char)
  | [] => none
  | c :: cs =>
    if c.isDigit then
      let ds := (c :: cs).takeWhile Char.isDigit
      match (c :: cs).dropWhile Char.isDigit with
      | '.' :: r => some (ds ++ ['.'], r)
      | _ => none
    else if c = '-' then some (['-'], cs)
    else if c = '*' then some (['*'], cs)
    else none

/-- Split off the last character of `l` that is not a line terminator:
`some (p, c, s)` with `l = p ++ c :: s`, `c` not a terminator and every
character of `s` a terminator.  Used for the backtracking of `\s*` when the
string ends before a character matchable by `.` is found. -/
def splitLastNonTerm : List Char → Option (List Char × Char × List Char)
  | [] => none
  | c :: cs =>
    match splitLastNonTerm cs with
    | some (p, d, s) => some (c :: p, d, s)
    | none => if isLineTerm c then none else some ([], c, cs)

/-- Match `\s*(.+)` at the head of `s` (greedy with backtracking): consumed
characters and rest. -/
def matchWsText (s : List Char) : Option (List Char × List Char) :=
  let ws := s.takeWhile isJsSpace
  match s.dropWhile isJsSpace with
  | c :: r =>
    -- the first non-space character is never a line terminator
    let grp := (c :: r).takeWhile (fun d => !(isLineTerm d))
    some (ws ++ grp, (c :: r).dropWhile (fun d => !(isLineTerm d)))
  | [] =>
    -- the string ends in whitespace: `.+` backtracks into it
    match splitLastNonTerm ws with
    | some (p, c, s) => some (p ++ [c], s)
    | none => none

/-- Match `(?:\d+\.|\-|\*)\s*(.+)` at the head of `s`. -/
def tryMatchBody (s : List Char) : Option (List Char × List Char) :=
  match matchMarker s with
  | none => none
  | some (mk, r) =>
    match matchWsText r with
    | none => none
    | some (wt, rest) => some (mk ++ wt, rest)

/-- Match the full pattern `(?:^|\n)(?:\d+\.|\-|\*)\s*(.+)` at the current
position; `atStart` is true only at position 0, where the `^` alternative is
tried before the literal `\n` alternative. -/
def tryMatchAt (s : List Char) (atStart : Bool) : Option (List Char × List Char) :=
  if atStart then
    match tryMatchBody s with
    | some (m, r) => some (m, r)
    | none =>
      match s with
      | '\n' :: s' => (tryMatchBody s').map (fun p => ('\n' :: p.1, p.2))
      | _ => none
  else
    match s with
    | '\n' :: s' => (tryMatchBody s').map (fun p => ('\n' :: p.1, p.2))
    | _ => none

/-- Global scan: every step either emits a match and resumes after it or
advances one character, so `s.length + 1` fuel always suffices. -/
def scanAux : Nat → List Char → Bool → List (List Char)
  | 0, _, _ => []
  | fuel + 1, s, atStart =>
    match tryMatchAt s atStart with
    | some (m, rest) => m :: scanAux fuel rest false
    | none =>
      match s with
      | [] => []
      | _ :: s' => scanAux fuel s' false

/-- All matches of `/(?:^|\n)(?:\d+\.|\-|\*)\s*(.+)/g` in `s`. -/
def bulletMatches (s : List Char) : List (List Char) :=
  scanAux (s.length + 1) s true

/-! ## `PlannerAgent` data model -/

/-- `defaultPolicy` of an entry of `config/agents.json`. -/
structure DefaultPolicy where
  readPaths : Option (List String)
  writePaths : Option (List String)
  denyPaths : Option (List String)
deriving DecidableEq, Repr

/-- One entry of `config/agents.json` (`AgentConfig` in `planner.ts`). -/
structure AgentConfig where
  name : String
  capabilities : List String
  defaultPolicy : DefaultPolicy
deriving DecidableEq, Repr

/-- `TaskStep` of `planner.ts`. -/
structure TaskStep where
  id : String
  agent : String
  action : String
  description : String
  dependencies : List String
  priority : Int
deriving DecidableEq, Repr

/-- The `instructions` component of an `ExecutionPlan`. -/
structure PlanInstructions where
  summary : String
  keyRequirements : List String
deriving DecidableEq, Repr

/-- The per-agent snapshot stored in a plan (`name` + `capabilities`). -/
structure AgentInfo where
  name : String
  capabilities : List String
deriving DecidableEq, Repr

/-- `ExecutionPlan` of `planner.ts`. -/
structure ExecutionPlan where
  planId : String
  createdAt : String
  instructions : PlanInstructions
  agents : List AgentInfo
  tasks : List TaskStep
  executionOrder : List String
deriving DecidableEq, Repr

/-- The class `[\n\d\.\-\*\s]` of the marker-stripping
`match.replace(/^[\n\d\.\-\*\s]+/, '')`. -/
def isStripClass (c : Char) : Bool :=
  c = '\n' || c.isDigit || c = '.' || c = '-' || c = '*' || isJsSpace c

/-- `match.replace(/^[\n\d\.\-\*\s]+/, '').trim()`. -/
def stripMarkerRun (m : List Char) : List Char :=
  jsTrim (m.dropWhile isStripClass)

/-- The keyword→implication table of `analyzeRequirements`
(each regex is a single case-insensitive literal). -/
def plannerPatterns : List (String × String) :=
  [("frontend", "Frontend development required"),
   ("backend", "Backend development required"),
   ("phone", "Phone field integration needed"),
   ("test", "Testing implementation required"),
   ("api", "API development/modification needed"),
   ("ui", "UI modifications required")]

/-- `PlannerAgent.analyzeRequirements`: collect bullet items longer than 10
characters after stripping, then append each keyword-implied requirement
that is not already present. -/
def analyzeRequirements (instructions : String) : List String :=
  let taskMatches := bulletMatches instructions.data
  let requirements : List String :=
    taskMatches.foldl
      (fun acc m =>
        let task := stripMarkerRun m
        if task.length > 10 then acc ++ [String.mk task] else acc)
      []
  plannerPatterns.foldl
    (fun acc p =>
      if regexTestCI p.1 instructions && !(acc.contains p.2) then
        acc ++ [p.2]
      else acc)
    requirements

/-! ## `PlannerAgent` operations -/

/-- `PlannerAgent.determineNeededAgents`: map the joined, lower-cased
requirement text through the three selection regexes, then keep only agents
present in the loaded configuration. -/
def determineNeededAgents (agentsConfig : List AgentConfig)
    (requirements : List String) : List String :=
  let reqText := lowerChars (joinSpace (requirements.map String.data))
  let agents :=
    (if hasSubSeq "frontend".data reqText || hasSubSeq "ui".data reqText ||
        hasSubSeq "form".data reqText then
      ["frontend-agent", "frontend-tests-agent"]
    else []) ++
    (if hasSubSeq "backend".data reqText || hasSubSeq "api".data reqText ||
        hasSubSeq "server".data reqText then
      ["backend-agent", "backend-tests-agent"]
    else []) ++
    (if hasSubSeq "diagram".data reqText || hasSubSeq "mermaid".data reqText ||
        hasSubSeq "architecture".data reqText then
      ["mermaid-agent"]
    else [])
  agents.filter (fun agent => (agentsConfig.map AgentConfig.name).contains agent)

/-- The task template pushed for one agent name in `PlannerAgent.createTasks`
(`taskId` is the current counter value; `none` for a name with no template,
in which case the counter is not incremented). -/
def taskForAgent (agentName : String) (taskId : Nat) : Option TaskStep :=
  if agentName = "frontend-agent" then
    some { id := "T" ++ Nat.repr taskId, agent := agentName,
           action := "enhance_frontend",
           description := "Enhance frontend with required modifications",
           dependencies := [], priority := 2 }
  else if agentName = "backend-agent" then
    some { id := "T" ++ Nat.repr taskId, agent := agentName,
           action := "enhance_backend",
           description := "Enhance backend API with required modifications",
           dependencies := [], priority := 1 }
  else if agentName = "frontend-tests-agent" then
    some { id := "T" ++ Nat.repr taskId, agent := agentName,
           action := "generate_frontend_tests",
           description := "Generate comprehensive frontend tests",
           dependencies := ["T1"], priority := 3 }
  else if agentName = "backend-tests-agent" then
    some { id := "T" ++ Nat.repr taskId, agent := agentName,
           action := "generate_backend_tests",
           description := "Generate comprehensive backend tests",
           dependencies := ["T2"], priority := 3 }
  else if agentName = "mermaid-agent" then
    some { id := "T" ++ Nat.repr taskId, agent := agentName,
           action := "generate_diagram",
           description := "Generate system architecture diagram",
           dependencies := [], priority := 4 }
  else none

/-- The loop body of `PlannerAgent.createTasks`, folding over the needed
agent names with state (tasks so far, next task id). -/
def createTasksStep (agentsConfig : List AgentConfig)
    (st : List TaskStep × Nat) (agentName : String) : List TaskStep × Nat :=
  match agentsConfig.find? (fun a => a.name = agentName) with
  | none => st
  | some _ =>
    match taskForAgent agentName st.2 with
    | none => st
    | some t => (st.1 ++ [t], st.2 + 1)

/-- `PlannerAgent.createTasks`. -/
def createTasks (agentsConfig : List AgentConfig)
    (requirements : List String) : List TaskStep :=
  let neededAgents := determineNeededAgents agentsConfig requirements
  (neededAgents.foldl (createTasksStep agentsConfig) ([], 1)).1

/-- Stable insertion used by `sortByPriority`: an element is placed after all
earlier elements of smaller-or-equal priority, matching the stable
`Array.prototype.sort((a, b) => a.priority - b.priority)`. -/
def insertByPriority (t : TaskStep) : List TaskStep → List TaskStep
  | [] => [t]
  | x :: xs =>
    if t.priority ≤ x.priority then t :: x :: xs else x :: insertByPriority t xs

/-- Stable sort by ascending `priority`
(`[...tasks].sort((a, b) => a.priority - b.priority)`). -/
def sortByPriority : List TaskStep → List TaskStep
  | [] => []
  | x :: xs => insertByPriority x (sortByPriority xs)

/-- The ready predicate of `determineExecutionOrder`:
`task.dependencies.every(dep => executed.includes(dep))`. -/
def depsReady (executed : List String) (t : TaskStep) : Bool :=
  t.dependencies.all (fun dep => executed.contains dep)

/-- The `while (remaining.length > 0)` loop of `determineExecutionOrder`.
Every iteration removes exactly one task from `remaining` (either the first
ready task or, when none is ready, the head), so `remaining.length` fuel
makes the loop structurally terminating without changing its behaviour. -/
def orderLoop : Nat → List String → List TaskStep → List String
  | 0, executed, _ => executed
  | fuel + 1, executed, remaining =>
    match remaining with
    | [] => executed
    | r0 :: rs =>
      match remaining.filter (depsReady executed) with
      | [] => orderLoop fuel (executed ++ [r0.id]) rs
      | t :: _ => orderLoop fuel (executed ++ [t.id]) (remaining.erase t)

/-- `PlannerAgent.determineExecutionOrder`. -/
def determineExecutionOrder (tasks : List TaskStep) : List String :=
  let sortedTasks := sortByPriority tasks
  orderLoop sortedTasks.length [] sortedTasks

/-- JS `String.prototype.split('\n')`. -/
def splitOnNl : List Char → List (List Char)
  | [] => [[]]
  | c :: cs =>
    if c = '\n' then [] :: splitOnNl cs
    else
      match splitOnNl cs with
      | l :: ls => (c :: l) :: ls
      | [] => [[c]]

/-- `PlannerAgent.extractInstructionsSummary`. -/
def extractInstructionsSummary (instructions : String) : String :=
  let lines := splitOnNl instructions.data
  let summaryLines := (lines.take 5).filter (fun line => (jsTrim line).length > 0)
  String.mk ((joinSpace summaryLines).take 200 ++ "...".data)

/-- `PlannerAgent.createExecutionPlan`, with the two clock reads passed in
(`now` is `Date.now()`, `nowISO` is `new Date().toISOString()`). -/
def createExecutionPlan (agentsConfig : List AgentConfig)
    (instructions : String) (now : Nat) (nowISO : String) : ExecutionPlan :=
  let requirements := analyzeRequirements instructions
  let tasks := createTasks agentsConfig requirements
  let executionOrder := determineExecutionOrder tasks
  { planId := "PLAN-" ++ Nat.repr now
    createdAt := nowISO
    instructions :=
      { summary := extractInstructionsSummary instructions
        keyRequirements := requirements }
    agents := agentsConfig.map (fun a => { name := a.name, capabilities := a.capabilities })
    tasks := tasks
    executionOrder := executionOrder }

/-! ## `OrchestratorV2` task execution (`orchestrator-v2.ts`) -/

/-- The worker names `OrchestratorV2.executeAgent` can dispatch
(the last three are logged as "not yet implemented" and succeed as no-ops). -/
def knownAgents : List String :=
  ["frontend-agent", "backend-agent", "mermaid-agent",
   "smoke-test-agent", "readme-agent"]

/-- `OrchestratorV2.executeAgent`.  `invoker` models the `execute()` calls of
the frontend/backend V2 agents, which may throw; the three not-yet-implemented
agents only log; any other name throws `Unknown agent`. -/
def executeAgent (invoker : String → Except String Unit)
    (agentName : String) : Except String Unit :=
  if agentName = "frontend-agent" then invoker "frontend-agent"
  else if agentName = "backend-agent" then invoker "backend-agent"
  else if agentName = "mermaid-agent" then Except.ok ()
  else if agentName = "smoke-test-agent" then Except.ok ()
  else if agentName = "readme-agent" then Except.ok ()
  else Except.error ("Unknown agent: " ++ agentName)

/-- The `for (const taskId of this.executionPlan.executionOrder)` loop of
`OrchestratorV2.executeTasks`.  Returns the agent invocations performed, in
order (the retained side effects), and the overall outcome: an id that
resolves to no task is skipped with a warning; a task failure rethrows
immediately. -/
def executeTasksLoop (tasks : List TaskStep)
    (invoker : String → Except String Unit) :
    List String → List String → List String × Except String Unit
  | [], invoked => (invoked, Except.ok ())
  | taskId :: rest, invoked =>
    match tasks.find? (fun t => t.id = taskId) with
    | none => executeTasksLoop tasks invoker rest invoked
    | some task =>
      match executeAgent invoker task.agent with
      | Except.ok () => executeTasksLoop tasks invoker rest (invoked ++ [task.agent])
      | Except.error e => (invoked ++ [task.agent], Except.error e)

/-- `OrchestratorV2.executeTasks` on a loaded plan. -/
def executeTasks (plan : ExecutionPlan)
    (invoker : String → Except String Unit) : List String × Except String Unit :=
  executeTasksLoop plan.tasks invoker plan.executionOrder []

/-! ## `OrchestratorAgent` mailbox drain (`orchestrator.ts`) -/

/-- A mailbox request payload is opaque structured data interpreted only by
the target worker. -/
abbrev Payload := String

/-- `policySnapshot` of a mailbox request; both fields are optional in the
JSON. -/
structure PolicySnapshot where
  writePaths : Option (List String)
  denyPaths : Option (List String)
deriving DecidableEq, Repr

/-- A parsed mailbox request (the JSON fields `from` and `to` are called
`fromAgent` and `toAgent` here because `from` and `to` are Lean keywords). -/
structure MailboxRequest where
  id : String
  fromAgent : String
  toAgent : String
  intent : String
  scope : String
  payload : Payload
  policySnapshot : Option PolicySnapshot
deriving DecidableEq, Repr

/-- The result object returned by `BackendAgent.applyApiChange`; the drain
reads both fields defensively (`result.artifacts || []`,
`result.notes || 'Request processed'`). -/
structure WorkerResult where
  artifacts : Option (List String)
  notes : Option String
deriving DecidableEq, Repr

/-- An event file written to `comms/events/from-backend`. -/
structure MailboxEvent where
  id : String
  correlates : String
  agent : String
  status : String
  artifacts : List String
  notes : String
  createdAt : String
deriving DecidableEq, Repr

/-- The observable effects of draining one request file. -/
structure RequestEffects where
  workerInvoked : Bool
  eventWritten : Option MailboxEvent
  movedToProcessed : Bool
deriving DecidableEq, Repr

/-- JS `String.prototype.replace` with a string pattern: remove the first
occurrence of `pat`. -/
def removeFirstSeq (pat : List Char) : List Char → List Char
  | [] => []
  | c :: cs =>
    if leadsWith pat (c :: cs) then List.drop pat.length (c :: cs)
    else c :: removeFirstSeq pat cs

/-- JS `x || d` for an optional string (both `undefined` and `''` fall back
to the default). -/
def jsOrString (x : Option String) (d : String) : String :=
  match x with
  | none => d
  | some s => if s = "" then d else s

/-- `OrchestratorAgent.processMailboxRequest` for one request file.
`applyApiChange` models `this.backendAgent.applyApiChange`, which may throw;
`parsed` is the `JSON.parse` result of the file contents.  Any throw inside
the `try` body is caught and only logged, leaving the file in place. -/
def processMailboxRequest (applyApiChange : Payload → Except String WorkerResult)
    (nowISO : String) (parsed : Except String MailboxRequest) : RequestEffects :=
  match parsed with
  | Except.error _ => { workerInvoked := false, eventWritten := none, movedToProcessed := false }
  | Except.ok request =>
    if request.toAgent ≠ "backend-agent" then
      -- routing check: skip, without moving the file
      { workerInvoked := false, eventWritten := none, movedToProcessed := false }
    else
      let writePaths := (request.policySnapshot.bind PolicySnapshot.writePaths).getD []
      let hasValidWritePath := writePaths.any (fun path => leadsWith "outputs/".data path.data)
      if !hasValidWritePath then
        -- policy validation failed: log and return
        { workerInvoked := false, eventWritten := none, movedToProcessed := false }
      else
        let call : Bool × Except String WorkerResult :=
          if request.intent = "API_CHANGE" then (true, applyApiChange request.payload)
          else (false, Except.ok { artifacts := some [],
                                   notes := some ("Unknown intent: " ++ request.intent) })
        match call with
        | (inv, Except.error _) =>
          -- the worker threw: caught, logged, nothing written or moved
          { workerInvoked := inv, eventWritten := none, movedToProcessed := false }
        | (inv, Except.ok result) =>
          let event : MailboxEvent :=
            { id := "EVT-" ++ String.mk (removeFirstSeq "REQ-".data request.id.data)
              correlates := request.id
              agent := "backend-agent"
              status := "DONE"
              artifacts := result.artifacts.getD []
              notes := jsOrString result.notes "Request processed"
              createdAt := nowISO }
          { workerInvoked := inv, eventWritten := some event, movedToProcessed := true }

/-- The drain loop of `OrchestratorAgent.processMailboxRequests` over the
parsed contents of the pending request files, in directory order.  Each file
is processed inside its own `try`/`catch`, so one failure never stops the
loop. -/
def processMailboxRequests (applyApiChange : Payload → Except String WorkerResult)
    (nowISO : String) (inbound : List (Except String MailboxRequest)) :
    List RequestEffects :=
  inbound.map (processMailboxRequest applyApiChange nowISO)

/-! ## Mailbox drain: routing, policy and failure behaviour (C2, C3, C6) -/

/-- C6: a drained mailbox request whose `to` field does not name a worker this
orchestrator handles requests for is skipped: the worker is not invoked, no
Event file is produced and the request file is left in the inbound directory
(not moved to processed). -/
theorem mailbox_unroutable_skipped (f : Payload → Except String WorkerResult)
    (nowISO : String) (req : MailboxRequest)
    (h : req.toAgent ≠ "backend-agent") :
    processMailboxRequest f nowISO (Except.ok req) =
      { workerInvoked := false, eventWritten := none, movedToProcessed := false } := by
  unfold processMailboxRequest
  dsimp only
  rw [if_pos h]

/-- Witness for `mailbox_unroutable_skipped` at a concrete request addressed
to `frontend-agent`. -/
theorem mailbox_unroutable_skipped_witness :
    processMailboxRequest (fun _ => Except.ok { artifacts := some [], notes := some "n" }) "t"
      (Except.ok (⟨"REQ-7", "backend-agent", "frontend-agent", "API_CHANGE", "s", "p",
        some ⟨some ["outputs/x"], none⟩⟩ : MailboxRequest)) =
      { workerInvoked := false, eventWritten := none, movedToProcessed := false } :=
  mailbox_unroutable_skipped _ _ _ (by decide)

/-- C2 (amended): a drained mailbox request whose `policySnapshot.writePaths`
contains no path under the configured output root `outputs/` never results in
a worker invocation, and the request file is left in the inbound directory
(not moved to processed); no Event is produced. -/
theorem mailbox_policy_block_effects (f : Payload → Except String WorkerResult)
    (nowISO : String) (req : MailboxRequest)
    (hpol : ∀ p ∈ (req.policySnapshot.bind PolicySnapshot.writePaths).getD [],
        leadsWith "outputs/".data p.data = false) :
    processMailboxRequest f nowISO (Except.ok req) =
      { workerInvoked := false, eventWritten := none, movedToProcessed := false } := by
  unfold processMailboxRequest
  dsimp only
  by_cases hto : req.toAgent = "backend-agent"
  · rw [if_neg (by simp [hto])]
    have hval : ((req.policySnapshot.bind PolicySnapshot.writePaths).getD []).any
        (fun path => leadsWith "outputs/".data path.data) = false := by
      rw [List.any_eq_false]
      intro p hp
      simp [hpol p hp]
    simp only [hval]
    rfl
  · rw [if_pos hto]

/-- Witness for `mailbox_policy_block_effects` at a concrete request whose
only declared write path is under `apps/`. -/
theorem mailbox_policy_block_effects_witness :
    processMailboxRequest (fun _ => Except.ok { artifacts := some [], notes := some "n" }) "t"
      (Except.ok (⟨"REQ-8", "frontend-agent", "backend-agent", "API_CHANGE", "s", "p",
        some ⟨some ["apps/x"], none⟩⟩ : MailboxRequest)) =
      { workerInvoked := false, eventWritten := none, movedToProcessed := false } :=
  mailbox_policy_block_effects _ _ _ (by decide)

/-- C2 counterexample: the claim additionally asserts that a policy-blocked
request file is always moved to the processed directory; at this concrete
policy-blocked request the file is not moved. -/
theorem mailbox_policy_block_counterexample :
    (processMailboxRequest (fun _ => Except.ok { artifacts := some [], notes := some "n" }) "t"
      (Except.ok (⟨"REQ-9", "frontend-agent", "backend-agent", "API_CHANGE", "s", "p",
        some ⟨some ["apps/x"], none⟩⟩ : MailboxRequest))).movedToProcessed = false := by
  decide

/-- C3 (amended): when the target worker invocation of a routed, policy-valid
`API_CHANGE` request fails, no Event file is written for that request (the
failure is only logged) and the request file stays in the inbound directory;
the failure is isolated to that one message and the drain processes all
remaining messages unchanged. -/
theorem mailbox_worker_failure_isolated (f : Payload → Except String WorkerResult)
    (nowISO : String) (req : MailboxRequest) (e : String)
    (pre post : List (Except String MailboxRequest))
    (hto : req.toAgent = "backend-agent")
    (hpol : ∃ p ∈ (req.policySnapshot.bind PolicySnapshot.writePaths).getD [],
        leadsWith "outputs/".data p.data = true)
    (hintent : req.intent = "API_CHANGE")
    (hfail : f req.payload = Except.error e) :
    processMailboxRequest f nowISO (Except.ok req) =
      { workerInvoked := true, eventWritten := none, movedToProcessed := false } ∧
    processMailboxRequests f nowISO (pre ++ Except.ok req :: post) =
      processMailboxRequests f nowISO pre ++
        { workerInvoked := true, eventWritten := none, movedToProcessed := false } ::
        processMailboxRequests f nowISO post := by
  have hone : processMailboxRequest f nowISO (Except.ok req) =
      { workerInvoked := true, eventWritten := none, movedToProcessed := false } := by
    unfold processMailboxRequest
    dsimp only
    rw [if_neg (by simp [hto])]
    have hval : ((req.policySnapshot.bind PolicySnapshot.writePaths).getD []).any
        (fun path => leadsWith "outputs/".data path.data) = true := by
      rw [List.any_eq_true]
      obtain ⟨p, hp, hlead⟩ := hpol
      exact ⟨p, hp, hlead⟩
    simp only [hval, hintent, hfail]
    rfl
  refine ⟨hone, ?_⟩
  unfold processMailboxRequests
  rw [List.map_append, List.map_cons, hone]

/-- Witness for `mailbox_worker_failure_isolated`: a failing worker on a
valid request between two other messages. -/
theorem mailbox_worker_failure_isolated_witness :
    processMailboxRequest (fun _ => Except.error "boom") "t"
      (Except.ok (⟨"REQ-10", "frontend-agent", "backend-agent", "API_CHANGE", "s", "p",
        some ⟨some ["outputs/backend/x"], none⟩⟩ : MailboxRequest)) =
      { workerInvoked := true, eventWritten := none, movedToProcessed := false } ∧
    processMailboxRequests (fun _ => Except.error "boom") "t"
      ([Except.error "bad json"] ++
        Except.ok (⟨"REQ-10", "frontend-agent", "backend-agent", "API_CHANGE", "s", "p",
          some ⟨some ["outputs/backend/x"], none⟩⟩ : MailboxRequest) ::
        [Except.error "bad json 2"]) =
      processMailboxRequests (fun _ => Except.error "boom") "t" [Except.error "bad json"] ++
        { workerInvoked := true, eventWritten := none, movedToProcessed := false } ::
        processMailboxRequests (fun _ => Except.error "boom") "t" [Except.error "bad json 2"] :=
  mailbox_worker_failure_isolated _ _ _ "boom" _ _ (by decide)
    ⟨"outputs/backend/x", by decide, by decide⟩ (by decide) rfl

/-- C3 counterexample: the claim asserts that a failed worker invocation
produces an Event with status ERROR; at this concrete failing request no
Event at all is written. -/
theorem mailbox_worker_failure_counterexample :
    (processMailboxRequest (fun _ => Except.error "boom") "t"
      (Except.ok (⟨"REQ-11", "frontend-agent", "backend-agent", "API_CHANGE", "s", "p",
        some ⟨some ["outputs/backend/x"], none⟩⟩ : MailboxRequest))).eventWritten = none := by
  decide

/-! ## Planner self-dependency (C5) -/

/-- C5: with a registry holding only `backend-agent` and `backend-tests-agent`
and instructions mentioning "backend", the produced plan contains a task
(the backend-tests task, which receives id `T2`) whose hard-coded dependency
list `["T2"]` names the task itself — a task that depends on itself, contrary
to the documented dependency invariant. -/
theorem planner_self_dependency_bug :
    ∃ t ∈ (createExecutionPlan
        [{ name := "backend-agent", capabilities := [], defaultPolicy := ⟨none, none, none⟩ },
         { name := "backend-tests-agent", capabilities := [], defaultPolicy := ⟨none, none, none⟩ }]
        "backend" 0 "t").tasks,
      t.id ∈ t.dependencies := by decide

/-! ## OrchestratorV2 execution behaviour (C4, C10) -/

/-- Loop lemma for C4: as soon as a resolved task's agent invocation fails,
the loop stops with the error; everything invoked so far is retained and
nothing after the failing id is invoked. -/
theorem executeTasksLoop_failure (tasks : List TaskStep)
    (invoker : String → Except String Unit) (post : List String)
    (tid : String) (task : TaskStep) (e : String)
    (htask : tasks.find? (fun u => u.id = tid) = some task)
    (hfail : executeAgent invoker task.agent = Except.error e) :
    ∀ (pre : List String) (invoked : List String),
    (∀ id ∈ pre, ∀ t, tasks.find? (fun u => u.id = id) = some t →
        executeAgent invoker t.agent = Except.ok ()) →
    executeTasksLoop tasks invoker (pre ++ tid :: post) invoked =
      (invoked ++
        pre.filterMap (fun id => (tasks.find? (fun u => u.id = id)).map TaskStep.agent) ++
        [task.agent],
       Except.error e) := by
  intro pre
  induction pre with
  | nil =>
    intro invoked _
    simp only [List.nil_append, executeTasksLoop, htask, hfail]
    simp
  | cons a pre ih =>
    intro invoked hpre
    rw [List.cons_append]
    cases h1 : tasks.find? (fun u => u.id = a) with
    | none =>
      simp only [executeTasksLoop, h1]
      rw [ih invoked (fun id hid => hpre id (List.mem_cons_of_mem a hid))]
      simp [h1]
    | some t0 =>
      have hok : executeAgent invoker t0.agent = Except.ok () :=
        hpre a (List.mem_cons_self a pre) t0 h1
      simp only [executeTasksLoop, h1, hok]
      rw [ih (invoked ++ [t0.agent]) (fun id hid => hpre id (List.mem_cons_of_mem a hid))]
      simp [h1]

/-- C4: during plan execution the first worker failure stops the run and
propagates the error: the invocations performed are exactly those of the
resolved tasks before the failing one (retained, in `executionOrder` order)
plus the failing task's, no id after the failing one is executed, and a task
naming a worker outside the orchestrator's dispatch table is itself a fatal
`Unknown agent` error rather than a skip. -/
theorem executeTasks_first_failure (plan : ExecutionPlan)
    (invoker : String → Except String Unit)
    (pre post : List String) (tid : String) (task : TaskStep) (e : String)
    (horder : plan.executionOrder = pre ++ tid :: post)
    (hpre : ∀ id ∈ pre, ∀ t, plan.tasks.find? (fun u => u.id = id) = some t →
        executeAgent invoker t.agent = Except.ok ())
    (htask : plan.tasks.find? (fun u => u.id = tid) = some task)
    (hfail : executeAgent invoker task.agent = Except.error e) :
    executeTasks plan invoker =
      (pre.filterMap (fun id => (plan.tasks.find? (fun u => u.id = id)).map TaskStep.agent) ++
        [task.agent],
       Except.error e) ∧
    ∀ name, name ∉ knownAgents →
      executeAgent invoker name = Except.error ("Unknown agent: " ++ name) := by
  constructor
  · unfold executeTasks
    rw [horder, executeTasksLoop_failure plan.tasks invoker post tid task e htask hfail pre [] hpre]
    simp
  · intro name h
    simp only [knownAgents, List.mem_cons, List.not_mem_nil, or_false, not_or] at h
    obtain ⟨h1, h2, h3, h4, h5⟩ := h
    simp [executeAgent, h1, h2, h3, h4, h5]

/-- A concrete three-task plan used by the execution witnesses. -/
def samplePlan : ExecutionPlan :=
  { planId := "PLAN-0"
    createdAt := "c"
    instructions := { summary := "s", keyRequirements := [] }
    agents := []
    tasks := [{ id := "T1", agent := "frontend-agent", action := "a", description := "d",
                dependencies := [], priority := 2 },
              { id := "T2", agent := "backend-agent", action := "a", description := "d",
                dependencies := [], priority := 1 },
              { id := "T3", agent := "mermaid-agent", action := "a", description := "d",
                dependencies := [], priority := 4 }]
    executionOrder := ["T1", "T2", "T3"] }

/-- An invoker whose backend invocation throws. -/
def sampleInvoker : String → Except String Unit :=
  fun n => if n = "backend-agent" then Except.error "boom" else Except.ok ()

/-- Witness for `executeTasks_first_failure`: of three planned tasks the
second fails, so exactly the first two agents were invoked and the third
never runs. -/
theorem executeTasks_first_failure_witness :
    executeTasks samplePlan sampleInvoker = (["frontend-agent", "backend-agent"], Except.error "boom") ∧
    ∀ name, name ∉ knownAgents →
      executeAgent sampleInvoker name = Except.error ("Unknown agent: " ++ name) := by
  have h := executeTasks_first_failure samplePlan sampleInvoker ["T1"] ["T3"] "T2"
    { id := "T2", agent := "backend-agent", action := "a", description := "d",
      dependencies := [], priority := 1 } "boom"
    rfl
    (by
      intro id hid t ht
      simp only [List.mem_singleton] at hid
      subst hid
      have hfind : samplePlan.tasks.find? (fun u => u.id = "T1") =
          some { id := "T1", agent := "frontend-agent", action := "a", description := "d",
                 dependencies := [], priority := 2 } := by decide
      rw [hfind] at ht
      cases ht
      rfl)
    (by decide) rfl
  exact ⟨by rw [h.1]; rfl, h.2⟩

/-- Loop lemma for C10: an id that resolves to no task contributes nothing to
the execution. -/
theorem executeTasksLoop_skip (tasks : List TaskStep)
    (invoker : String → Except String Unit) (post : List String) (tid : String)
    (hnone : tasks.find? (fun u => u.id = tid) = none) :
    ∀ (pre : List String) (invoked : List String),
    executeTasksLoop tasks invoker (pre ++ tid :: post) invoked =
      executeTasksLoop tasks invoker (pre ++ post) invoked := by
  intro pre
  induction pre with
  | nil =>
    intro invoked
    simp only [List.nil_append, executeTasksLoop, hnone]
  | cons a pre ih =>
    intro invoked
    rw [List.cons_append, List.cons_append]
    cases h1 : tasks.find? (fun u => u.id = a) with
    | none => simp only [executeTasksLoop, h1]; exact ih invoked
    | some t0 =>
      cases h2 : executeAgent invoker t0.agent with
      | ok v => simp only [executeTasksLoop, h1, h2]; exact ih (invoked ++ [t0.agent])
      | error er => simp only [executeTasksLoop, h1, h2]

/-- C10: an id in `executionOrder` that matches no task of the loaded plan is
skipped (with a warning) and execution continues exactly as if the id were
absent: no worker is invoked for it and the run is not aborted. -/
theorem executeTasks_unknown_id_skipped (plan : ExecutionPlan)
    (invoker : String → Except String Unit) (tid : String) (pre post : List String)
    (h : ∀ t ∈ plan.tasks, t.id ≠ tid) :
    executeTasks { plan with executionOrder := pre ++ tid :: post } invoker =
      executeTasks { plan with executionOrder := pre ++ post } invoker := by
  unfold executeTasks
  exact executeTasksLoop_skip plan.tasks invoker post tid
    (List.find?_eq_none.mpr (by simpa using h)) pre []

/-- Witness for `executeTasks_unknown_id_skipped`: the dangling id `TX` in
the order of `samplePlan` changes nothing. -/
theorem executeTasks_unknown_id_skipped_witness :
    executeTasks { samplePlan with executionOrder := ["T1", "TX", "T3"] } sampleInvoker =
      executeTasks { samplePlan with executionOrder := ["T1", "T3"] } sampleInvoker :=
  executeTasks_unknown_id_skipped samplePlan sampleInvoker "TX" ["T1"] ["T3"] (by decide)

/-! ## Injectivity of `Nat.repr`, for the `planId` of a plan (C7) -/

/-- The decimal digit characters of `n`, most significant first: the value
computed by core `Nat.toDigits 10`. -/
def natDigits (n : Nat) : List Char :=
  if h : n < 10 then [Nat.digitChar n]
  else natDigits (n / 10) ++ [Nat.digitChar (n % 10)]
termination_by n
decreasing_by
  exact Nat.div_lt_self (Nat.lt_of_lt_of_le (by norm_num) (Nat.le_of_not_lt h)) (by norm_num)

/-- Numeric value of a digit character. -/
def digitVal (c : Char) : Nat := c.toNat - '0'.toNat

/-- Parse a most-significant-first digit string back to a number. -/
def parseDigits (l : List Char) : Nat :=
  l.foldl (fun a c => a * 10 + digitVal c) 0

theorem digitVal_digitChar {k : Nat} (h : k < 10) :
    digitVal (Nat.digitChar k) = k := by
  interval_cases k <;> rfl

theorem parseDigits_append_one (l : List Char) (c : Char) :
    parseDigits (l ++ [c]) = parseDigits l * 10 + digitVal c := by
  unfold parseDigits
  rw [List.foldl_append]
  rfl

theorem parseDigits_natDigits (n : Nat) : parseDigits (natDigits n) = n := by
  induction n using Nat.strong_induction_on with
  | _ n ih =>
    rw [natDigits]
    by_cases h : n < 10
    · rw [dif_pos h]
      show 0 * 10 + digitVal (Nat.digitChar n) = n
      rw [digitVal_digitChar h]
      omega
    · rw [dif_neg h]
      have hdiv : n / 10 < n :=
        Nat.div_lt_self (Nat.lt_of_lt_of_le (by norm_num) (Nat.le_of_not_lt h)) (by norm_num)
      rw [parseDigits_append_one, ih (n / 10) hdiv,
        digitVal_digitChar (Nat.mod_lt n (by norm_num))]
      omega

theorem toDigitsCore_eq_natDigits :
    ∀ (fuel n : Nat) (acc : List Char), n < fuel →
      Nat.toDigitsCore 10 fuel n acc = natDigits n ++ acc := by
  intro fuel
  induction fuel with
  | zero => intro n acc h; omega
  | succ fuel ih =>
    intro n acc h
    show (let d := Nat.digitChar (n % 10)
          let n' := n / 10
          if n' = 0 then d :: acc else Nat.toDigitsCore 10 fuel n' (d :: acc)) =
      natDigits n ++ acc
    by_cases hz : n / 10 = 0
    · have hlt : n < 10 := (Nat.div_eq_zero_iff (by norm_num)).mp hz
      simp only [hz, if_pos]
      rw [natDigits, dif_pos hlt, Nat.mod_eq_of_lt hlt]
      rfl
    · have hge : ¬ n < 10 := by
        intro hc
        exact hz ((Nat.div_eq_zero_iff (by norm_num)).mpr hc)
      have hdiv : n / 10 < n :=
        Nat.div_lt_self (Nat.lt_of_lt_of_le (by norm_num) (Nat.le_of_not_lt hge)) (by norm_num)
      simp only [hz, if_neg]
      rw [ih (n / 10) _ (by omega)]
      conv_rhs => rw [natDigits, dif_neg hge]
      simp

theorem natRepr_injective : Function.Injective Nat.repr := by
  intro a b hab
  unfold Nat.repr at hab
  have hdata : Nat.toDigits 10 a = Nat.toDigits 10 b := by
    have := congrArg String.data hab
    simpa [List.asString] using this
  unfold Nat.toDigits at hdata
  rw [toDigitsCore_eq_natDigits (a + 1) a [] (Nat.lt_succ_self a),
    toDigitsCore_eq_natDigits (b + 1) b [] (Nat.lt_succ_self b)] at hdata
  simp only [List.append_nil] at hdata
  have := congrArg parseDigits hdata
  rwa [parseDigits_natDigits, parseDigits_natDigits] at this

/-- C7: running the planner twice on identical worker configuration and
identical instruction text yields identical `tasks` and identical
`executionOrder`; the `planId` values differ whenever the two `Date.now()`
readings differ. -/
theorem planner_deterministic_distinct_planId (agentsConfig : List AgentConfig)
    (instructions : String) (t1 t2 : Nat) (iso1 iso2 : String)
    (h : t1 ≠ t2) :
    (createExecutionPlan agentsConfig instructions t1 iso1).tasks =
      (createExecutionPlan agentsConfig instructions t2 iso2).tasks ∧
    (createExecutionPlan agentsConfig instructions t1 iso1).executionOrder =
      (createExecutionPlan agentsConfig instructions t2 iso2).executionOrder ∧
    (createExecutionPlan agentsConfig instructions t1 iso1).planId ≠
      (createExecutionPlan agentsConfig instructions t2 iso2).planId := by
  refine ⟨rfl, rfl, ?_⟩
  intro hid
  apply h
  apply natRepr_injective
  have hdata := congrArg String.data hid
  simp only [createExecutionPlan] at hdata
  have : ("PLAN-" ++ Nat.repr t1).data = ("PLAN-" ++ Nat.repr t2).data := hdata
  rw [String.data_append, String.data_append] at this
  have := List.append_cancel_left this
  exact String.ext this

/-- Witness for `planner_deterministic_distinct_planId` at two concrete
clock readings. -/
theorem planner_deterministic_distinct_planId_witness :
    (createExecutionPlan [] "backend" 1000 "a").tasks =
      (createExecutionPlan [] "backend" 1001 "b").tasks ∧
    (createExecutionPlan [] "backend" 1000 "a").executionOrder =
      (createExecutionPlan [] "backend" 1001 "b").executionOrder ∧
    (createExecutionPlan [] "backend" 1000 "a").planId ≠
      (createExecutionPlan [] "backend" 1001 "b").planId :=
  planner_deterministic_distinct_planId [] "backend" 1000 1001 "a" "b" (by decide)

/-! ## Substring and keyword-fold lemmas (for C8, C9) -/

theorem leadsWith_extend (nd : List Char) :
    ∀ l t, leadsWith nd l = true → leadsWith nd (l ++ t) = true := by
  induction nd with
  | nil => intro l t _; rfl
  | cons a as ih =>
    intro l t h
    cases l with
    | nil => simp [leadsWith] at h
    | cons b bs =>
      simp only [leadsWith, Bool.and_eq_true] at h ⊢
      exact ⟨h.1, ih bs t h.2⟩

theorem hasSubSeq_append_left (nd l1 l2 : List Char)
    (h : hasSubSeq nd l1 = true) : hasSubSeq nd (l1 ++ l2) = true := by
  induction l1 with
  | nil =>
    cases nd with
    | nil => rw [show (([] : List Char) ++ l2) = l2 from rfl]; cases l2 <;> simp [hasSubSeq, leadsWith]
    | cons a as => simp [hasSubSeq, leadsWith] at h
  | cons c cs ih =>
    simp only [hasSubSeq, Bool.or_eq_true] at h
    rw [List.cons_append]
    cases h with
    | inl hl =>
      have := leadsWith_extend nd (c :: cs) l2 hl
      rw [List.cons_append] at this
      simp [hasSubSeq, this]
    | inr hr => simp [hasSubSeq, ih hr]

theorem hasSubSeq_append_right (nd l1 l2 : List Char)
    (h : hasSubSeq nd l2 = true) : hasSubSeq nd (l1 ++ l2) = true := by
  induction l1 with
  | nil => exact h
  | cons c cs ih => rw [List.cons_append]; simp [hasSubSeq, ih]

theorem hasSubSeq_joinSpace_of_mem (nd x : List Char) (parts : List (List Char))
    (hx : x ∈ parts) (h : hasSubSeq nd x = true) :
    hasSubSeq nd (joinSpace parts) = true := by
  induction parts with
  | nil => cases hx
  | cons p ps ih =>
    cases hx with
    | head =>
      cases ps with
      | nil => exact h
      | cons q qs => exact hasSubSeq_append_left nd x _ h
    | tail _ hmem =>
      cases ps with
      | nil => cases hmem
      | cons q qs =>
        have hjs : hasSubSeq nd (joinSpace (q :: qs)) = true := ih hmem
        have : hasSubSeq nd (' ' :: joinSpace (q :: qs)) = true := by
          simp [hasSubSeq, hjs]
        exact hasSubSeq_append_right nd p _ this

theorem lowerChars_joinSpace (parts : List (List Char)) :
    lowerChars (joinSpace parts) = joinSpace (parts.map lowerChars) := by
  induction parts with
  | nil => rfl
  | cons p ps ih =>
    cases ps with
    | nil => rfl
    | cons q qs =>
      calc lowerChars (p ++ ' ' :: joinSpace (q :: qs))
          = lowerChars p ++ ' ' :: lowerChars (joinSpace (q :: qs)) := by
            unfold lowerChars
            rw [List.map_append, List.map_cons]
            rfl
        _ = lowerChars p ++ ' ' :: joinSpace ((q :: qs).map lowerChars) := by rw [ih]
        _ = joinSpace ((p :: q :: qs).map lowerChars) := rfl

/-- The bullet phase of `analyzeRequirements` (its first `forEach` loop). -/
def bulletScan (instructions : String) : List String :=
  (bulletMatches instructions.data).foldl
    (fun acc m =>
      let task := stripMarkerRun m
      if task.length > 10 then acc ++ [String.mk task] else acc)
    []

/-- One step of the keyword phase of `analyzeRequirements`. -/
def kwStep (instructions : String) (acc : List String) (p : String × String) : List String :=
  if regexTestCI p.1 instructions && !(acc.contains p.2) then acc ++ [p.2] else acc

theorem analyzeRequirements_eq_phases (instr : String) :
    analyzeRequirements instr = plannerPatterns.foldl (kwStep instr) (bulletScan instr) := rfl

theorem kwFold_sub (instr : String) :
    ∀ (ps : List (String × String)) (acc : List String) (x : String),
      x ∈ acc → x ∈ ps.foldl (kwStep instr) acc := by
  intro ps
  induction ps with
  | nil => intro acc x hx; exact hx
  | cons p ps ih =>
    intro acc x hx
    rw [List.foldl_cons]
    apply ih
    unfold kwStep
    split
    · exact List.mem_append_left _ hx
    · exact hx

theorem kwFold_mem_of_test (instr : String) :
    ∀ (ps : List (String × String)) (acc : List String) (p : String × String),
      p ∈ ps → regexTestCI p.1 instr = true → p.2 ∈ ps.foldl (kwStep instr) acc := by
  intro ps
  induction ps with
  | nil => intro acc p hp _; cases hp
  | cons q qs ih =>
    intro acc p hp htest
    cases hp with
    | head =>
      rw [List.foldl_cons]
      refine kwFold_sub instr qs (kwStep instr acc q) q.2 ?_
      unfold kwStep
      by_cases hc : (regexTestCI q.1 instr && !(acc.contains q.2)) = true
      · rw [if_pos hc]; exact List.mem_append_right _ (List.mem_singleton.mpr rfl)
      · rw [if_neg hc]
        have hcont : acc.contains q.2 = true := by
          rw [htest] at hc
          revert hc
          cases acc.contains q.2 <;> simp
        exact List.elem_iff.mp hcont
    | tail _ hmem =>
      rw [List.foldl_cons]
      exact ih _ p hmem htest

theorem kwFold_mem_inv (instr : String) :
    ∀ (ps : List (String × String)) (acc : List String) (r : String),
      r ∈ ps.foldl (kwStep instr) acc →
      r ∈ acc ∨ ∃ p ∈ ps, p.2 = r ∧ regexTestCI p.1 instr = true := by
  intro ps
  induction ps with
  | nil => intro acc r hr; exact Or.inl hr
  | cons q qs ih =>
    intro acc r hr
    rw [List.foldl_cons] at hr
    rcases ih (kwStep instr acc q) r hr with hacc | ⟨p, hp, hpr, htest⟩
    · unfold kwStep at hacc
      by_cases hc : (regexTestCI q.1 instr && !(acc.contains q.2)) = true
      · rw [if_pos hc] at hacc
        rcases List.mem_append.mp hacc with h1 | h2
        · exact Or.inl h1
        · have hc1 : regexTestCI q.1 instr = true := by
            revert hc; cases regexTestCI q.1 instr <;> simp
          exact Or.inr ⟨q, List.mem_cons_self q qs, (List.mem_singleton.mp h2).symm, hc1⟩
      · rw [if_neg hc] at hacc
        exact Or.inl hacc
    · exact Or.inr ⟨p, List.mem_cons_of_mem q hp, hpr, htest⟩

theorem kwFold_shape (instr : String) :
    ∀ (ps : List (String × String)) (acc : List String),
      ∃ kws, ps.foldl (kwStep instr) acc = acc ++ kws ∧ kws.Nodup ∧
        (∀ q ∈ kws, q ∉ acc) ∧ (∀ q ∈ kws, ∃ p ∈ ps, q = p.2) := by
  intro ps
  induction ps with
  | nil => intro acc; exact ⟨[], by simp, List.nodup_nil, by simp, by simp⟩
  | cons q qs ih =>
    intro acc
    by_cases hc : (regexTestCI q.1 instr && !(acc.contains q.2)) = true
    · obtain ⟨kws, heq, hnd, hnotin, horig⟩ := ih (acc ++ [q.2])
      refine ⟨q.2 :: kws, ?_, ?_, ?_, ?_⟩
      · rw [List.foldl_cons]
        rw [show kwStep instr acc q = acc ++ [q.2] from by unfold kwStep; rw [if_pos hc]]
        rw [heq]
        simp
      · refine List.nodup_cons.mpr ⟨?_, hnd⟩
        intro hmem
        exact hnotin q.2 hmem (List.mem_append_right _ (List.mem_singleton.mpr rfl))
      · intro x hx
        rcases List.mem_cons.mp hx with h1 | h2
        · subst h1
          intro hmem
          have hcfalse : acc.contains q.2 = true := List.elem_iff.mpr hmem
          rw [hcfalse] at hc
          simp at hc
        · intro hmem
          exact hnotin x h2 (List.mem_append_left _ hmem)
      · intro x hx
        rcases List.mem_cons.mp hx with h1 | h2
        · exact ⟨q, List.mem_cons_self q qs, h1⟩
        · obtain ⟨p, hp, hxp⟩ := horig x h2
          exact ⟨p, List.mem_cons_of_mem q hp, hxp⟩
    · obtain ⟨kws, heq, hnd, hnotin, horig⟩ := ih acc
      refine ⟨kws, ?_, hnd, hnotin, ?_⟩
      · rw [List.foldl_cons]
        rw [show kwStep instr acc q = acc from by unfold kwStep; rw [if_neg hc]]
        exact heq
      · intro x hx
        obtain ⟨p, hp, hxp⟩ := horig x hx
        exact ⟨p, List.mem_cons_of_mem q hp, hxp⟩

/-! ## Task creation membership (for C9) -/

theorem createTasksFold_sub (cfg : List AgentConfig) :
    ∀ (needed : List String) (st : List TaskStep × Nat) (x : TaskStep),
      x ∈ st.1 → x ∈ (needed.foldl (createTasksStep cfg) st).1 := by
  intro needed
  induction needed with
  | nil => intro st x hx; exact hx
  | cons a rest ih =>
    intro st x hx
    rw [List.foldl_cons]
    apply ih
    unfold createTasksStep
    cases cfg.find? (fun c => c.name = a) with
    | none => exact hx
    | some c =>
      cases taskForAgent a st.2 with
      | none => exact hx
      | some t => exact List.mem_append_left _ hx

theorem createTasksFold_mem (cfg : List AgentConfig) (name : String)
    (hfind : (cfg.find? (fun a => a.name = name)).isSome)
    (htmpl : ∀ k, ∃ t, taskForAgent name k = some t ∧ t.agent = name) :
    ∀ (needed : List String) (st : List TaskStep × Nat),
      name ∈ needed →
      ∃ t ∈ (needed.foldl (createTasksStep cfg) st).1, t.agent = name := by
  intro needed
  induction needed with
  | nil => intro st h; cases h
  | cons a rest ih =>
    intro st hmem
    rw [List.foldl_cons]
    by_cases ha : a = name
    · subst ha
      obtain ⟨c, hc⟩ := Option.isSome_iff_exists.mp hfind
      obtain ⟨t, ht, hag⟩ := htmpl st.2
      have hstep : (createTasksStep cfg st a).1 = st.1 ++ [t] := by
        unfold createTasksStep
        rw [hc, ht]
      refine ⟨t, ?_, hag⟩
      apply createTasksFold_sub
      rw [hstep]
      exact List.mem_append_right _ (List.mem_singleton.mpr rfl)
    · have hrest : name ∈ rest := by
        cases hmem with
        | head => exact absurd rfl ha
        | tail _ h => exact h
      exact ih _ hrest

theorem createTasks_mem_agent (cfg : List AgentConfig) (reqs : List String)
    (name : String)
    (hneed : name ∈ determineNeededAgents cfg reqs)
    (hcfg : ∃ a ∈ cfg, a.name = name)
    (htmpl : ∀ k, ∃ t, taskForAgent name k = some t ∧ t.agent = name) :
    ∃ t ∈ createTasks cfg reqs, t.agent = name := by
  have hfind : (cfg.find? (fun a => a.name = name)).isSome := by
    rw [List.find?_isSome]
    obtain ⟨a, ha, hname⟩ := hcfg
    exact ⟨a, ha, by simp [hname]⟩
  exact createTasksFold_mem cfg name hfind htmpl (determineNeededAgents cfg reqs) ([], 1) hneed

/-! ## C9: backend instructions imply frontend tasks via "req-ui-red" -/

/-- C9: for any instructions matching `/backend/i`, the auto-added requirement
string "Backend development required" itself satisfies the frontend
worker-selection test `/frontend|ui|form/` — the substring "ui" occurs inside
"required" — so when `frontend-agent` and `frontend-tests-agent` are
registered, the plan acquires frontend tasks even if the instructions mention
nothing frontend-related. -/
theorem backend_implies_frontend_tasks (cfg : List AgentConfig) (instr : String)
    (now : Nat) (iso : String)
    (hbackend : regexTestCI "backend" instr = true)
    (hfe : ∃ a ∈ cfg, a.name = "frontend-agent")
    (hft : ∃ a ∈ cfg, a.name = "frontend-tests-agent") :
    hasSubSeq "ui".data (lowerChars "Backend development required".data) = true ∧
    "Backend development required" ∈ analyzeRequirements instr ∧
    (∃ t ∈ (createExecutionPlan cfg instr now iso).tasks, t.agent = "frontend-agent") ∧
    (∃ t ∈ (createExecutionPlan cfg instr now iso).tasks, t.agent = "frontend-tests-agent") := by
  have hmem : "Backend development required" ∈ analyzeRequirements instr := by
    rw [analyzeRequirements_eq_phases]
    exact kwFold_mem_of_test instr plannerPatterns (bulletScan instr)
      ("backend", "Backend development required") (by simp [plannerPatterns]) hbackend
  have hui : hasSubSeq "ui".data
      (lowerChars (joinSpace ((analyzeRequirements instr).map String.data))) = true := by
    rw [lowerChars_joinSpace]
    apply hasSubSeq_joinSpace_of_mem "ui".data
      (lowerChars "Backend development required".data)
    · exact List.mem_map_of_mem lowerChars
        (List.mem_map_of_mem String.data hmem)
    · decide
  have hneedF : ∀ name ∈ ["frontend-agent", "frontend-tests-agent"],
      (∃ a ∈ cfg, a.name = name) → name ∈ determineNeededAgents cfg (analyzeRequirements instr) := by
    intro name hname hcfg
    unfold determineNeededAgents
    dsimp only
    rw [List.mem_filter]
    constructor
    · rw [if_pos (by simp [hui])]
      exact List.mem_append_left _ (List.mem_append_left _ hname)
    · obtain ⟨a, ha, hn⟩ := hcfg
      exact List.elem_iff.mpr (hn ▸ List.mem_map_of_mem AgentConfig.name ha)
  refine ⟨by decide, hmem, ?_, ?_⟩
  · show ∃ t ∈ createTasks cfg (analyzeRequirements instr), t.agent = "frontend-agent"
    exact createTasks_mem_agent cfg (analyzeRequirements instr) "frontend-agent"
      (hneedF "frontend-agent" (by simp) hfe) hfe (fun k => ⟨_, rfl, rfl⟩)
  · show ∃ t ∈ createTasks cfg (analyzeRequirements instr), t.agent = "frontend-tests-agent"
    exact createTasks_mem_agent cfg (analyzeRequirements instr) "frontend-tests-agent"
      (hneedF "frontend-tests-agent" (by simp) hft) hft (fun k => ⟨_, rfl, rfl⟩)

/-- Witness for `backend_implies_frontend_tasks`: instructions "backend"
mention nothing frontend-related, yet both frontend workers get tasks. -/
theorem backend_implies_frontend_tasks_witness :
    hasSubSeq "ui".data (lowerChars "Backend development required".data) = true ∧
    "Backend development required" ∈ analyzeRequirements "backend" ∧
    (∃ t ∈ (createExecutionPlan
        [{ name := "frontend-agent", capabilities := [], defaultPolicy := ⟨none, none, none⟩ },
         { name := "frontend-tests-agent", capabilities := [], defaultPolicy := ⟨none, none, none⟩ }]
        "backend" 0 "t").tasks, t.agent = "frontend-agent") ∧
    (∃ t ∈ (createExecutionPlan
        [{ name := "frontend-agent", capabilities := [], defaultPolicy := ⟨none, none, none⟩ },
         { name := "frontend-tests-agent", capabilities := [], defaultPolicy := ⟨none, none, none⟩ }]
        "backend" 0 "t").tasks, t.agent = "frontend-tests-agent") :=
  backend_implies_frontend_tasks _ "backend" 0 "t" (by decide)
    (by decide) (by decide)

/-! ## C8: requirement extraction characterization -/

theorem bulletFold_eq (ms : List (List Char)) :
    ∀ acc : List String,
      ms.foldl (fun acc m =>
          let task := stripMarkerRun m
          if task.length > 10 then acc ++ [String.mk task] else acc) acc
      = acc ++ (ms.map (fun m => String.mk (stripMarkerRun m))).filter
          (fun t => t.length > 10) := by
  induction ms with
  | nil => intro acc; simp
  | cons m ms ih =>
    intro acc
    rw [List.foldl_cons, List.map_cons, List.filter_cons]
    dsimp only
    by_cases hc : (stripMarkerRun m).length > 10
    · rw [if_pos hc, ih (acc ++ [String.mk (stripMarkerRun m)])]
      have hc' : decide ((String.mk (stripMarkerRun m)).length > 10) = true := decide_eq_true hc
      rw [hc']
      simp
    · rw [if_neg hc, ih acc]
      have hc' : decide ((String.mk (stripMarkerRun m)).length > 10) = false :=
        decide_eq_false hc
      rw [hc']
      simp

/-- The bullet-derived requirements of `analyzeRequirements` in map/filter
form: the stripped text of each match, in match order, duplicates kept,
restricted to texts longer than 10 characters. -/
def bulletRequirements (instructions : String) : List String :=
  ((bulletMatches instructions.data).map (fun m => String.mk (stripMarkerRun m))).filter
    (fun t => t.length > 10)

theorem bulletScan_eq (instr : String) : bulletScan instr = bulletRequirements instr := by
  unfold bulletScan bulletRequirements
  rw [bulletFold_eq]
  simp

/-- C8 (amended): `analyzeRequirements` is the bullet-phase list — for every
regex match, in order of appearance and with duplicates allowed, the match
text after stripping the maximal leading run of newlines, digits, periods,
hyphens, asterisks and whitespace (the code strips this whole class, not just
the marker) and trimming trailing whitespace, kept when longer than 10
characters — followed by a block of keyword-implied requirements; each
keyword requirement occurs in that block at most once, is appended exactly
when its regex matches, and is skipped exactly when an identical string is
already present in the list. -/
theorem analyzeRequirements_characterization (instr : String) :
    (∃ kws, analyzeRequirements instr = bulletRequirements instr ++ kws ∧ kws.Nodup ∧
        (∀ q ∈ kws, q ∉ bulletRequirements instr) ∧
        (∀ q ∈ kws, ∃ p ∈ plannerPatterns, q = p.2) ∧
        (∀ p ∈ plannerPatterns,
          (p.2 ∈ kws ↔
            regexTestCI p.1 instr = true ∧ p.2 ∉ bulletRequirements instr))) ∧
    (∀ p ∈ plannerPatterns,
        (p.2 ∈ analyzeRequirements instr ↔
          regexTestCI p.1 instr = true ∨ p.2 ∈ bulletRequirements instr)) ∧
    (∀ p ∈ plannerPatterns,
        (analyzeRequirements instr).count p.2 ≤ (bulletRequirements instr).count p.2 + 1) := by
  obtain ⟨kws, heq, hnd, hnotin, horig⟩ := kwFold_shape instr plannerPatterns (bulletScan instr)
  have hmain : analyzeRequirements instr = bulletRequirements instr ++ kws := by
    rw [analyzeRequirements_eq_phases, heq, bulletScan_eq]
  have hnotinB : ∀ q ∈ kws, q ∉ bulletRequirements instr := by
    intro q hq
    have := hnotin q hq
    rwa [bulletScan_eq] at this
  have hmemiff : ∀ p ∈ plannerPatterns,
      (p.2 ∈ analyzeRequirements instr ↔
        regexTestCI p.1 instr = true ∨ p.2 ∈ bulletRequirements instr) := by
    intro p hp
    constructor
    · intro hmem
      rcases kwFold_mem_inv instr plannerPatterns (bulletScan instr) p.2
          (by rw [← analyzeRequirements_eq_phases]; exact hmem) with hacc | ⟨q, hq, hqp, htest⟩
      · right; rwa [bulletScan_eq] at hacc
      · left
        have hqeq : q = p :=
          (by decide : ∀ p ∈ plannerPatterns, ∀ q ∈ plannerPatterns, q.2 = p.2 → q = p)
            p hp q hq hqp
        rwa [hqeq] at htest
    · intro h
      rcases h with htest | hbul
      · rw [analyzeRequirements_eq_phases]
        exact kwFold_mem_of_test instr plannerPatterns (bulletScan instr) p hp htest
      · rw [hmain]; exact List.mem_append_left _ hbul
  have hkwiff : ∀ p ∈ plannerPatterns,
      (p.2 ∈ kws ↔ regexTestCI p.1 instr = true ∧ p.2 ∉ bulletRequirements instr) := by
    intro p hp
    constructor
    · intro hk
      refine ⟨?_, hnotinB p.2 hk⟩
      have hmem : p.2 ∈ analyzeRequirements instr := by
        rw [hmain]; exact List.mem_append_right _ hk
      rcases (hmemiff p hp).mp hmem with htest | hbul
      · exact htest
      · exact absurd hbul (hnotinB p.2 hk)
    · rintro ⟨htest, hnb⟩
      have hmem : p.2 ∈ analyzeRequirements instr := (hmemiff p hp).mpr (Or.inl htest)
      rw [hmain] at hmem
      rcases List.mem_append.mp hmem with h1 | h2
      · exact absurd h1 hnb
      · exact h2
  refine ⟨⟨kws, hmain, hnd, hnotinB, horig, hkwiff⟩, hmemiff, ?_⟩
  intro p hp
  rw [hmain, List.count_append]
  have hkc : kws.count p.2 ≤ 1 := List.nodup_iff_count_le_one.mp hnd p.2
  omega

/-- C8 counterexample: for the instruction line "1. 2 plus 2 equals 4" the
claim demands the verbatim text after the marker, "2 plus 2 equals 4"
(17 characters), to be appended; the code strips the leading "2 " as well and
appends "plus 2 equals 4" instead. -/
theorem analyzeRequirements_verbatim_counterexample :
    analyzeRequirements "1. 2 plus 2 equals 4" = ["plus 2 equals 4"] ∧
    "2 plus 2 equals 4" ∉ analyzeRequirements "1. 2 plus 2 equals 4" := by
  decide

/-! ## C1: executionOrder is a permutation and (under closed acyclic
dependencies) a topological order -/

/-- Index of the first occurrence of `x` in `l` (length of `l` if absent). -/
def firstIdx (x : String) : List String → Nat
  | [] => 0
  | y :: ys => if y = x then 0 else firstIdx x ys + 1

/-- `d` appears strictly earlier than `i` in `l`. -/
def appearsBefore (d i : String) (l : List String) : Prop :=
  d ∈ l ∧ i ∈ l ∧ firstIdx d l < firstIdx i l

instance (d i : String) (l : List String) : Decidable (appearsBefore d i l) := by
  unfold appearsBefore
  infer_instance

theorem firstIdx_lt_length (x : String) (l : List String) (h : x ∈ l) :
    firstIdx x l < l.length := by
  induction l with
  | nil => cases h
  | cons y ys ih =>
    unfold firstIdx
    by_cases hy : y = x
    · rw [if_pos hy]; simp
    · rw [if_neg hy]
      have hx : x ∈ ys := by
        cases h with
        | head => exact absurd rfl hy
        | tail _ hh => exact hh
      simpa using ih hx

theorem firstIdx_append_left (x : String) (l1 l2 : List String) (h : x ∈ l1) :
    firstIdx x (l1 ++ l2) = firstIdx x l1 := by
  induction l1 with
  | nil => cases h
  | cons y ys ih =>
    rw [List.cons_append]
    unfold firstIdx
    by_cases hy : y = x
    · rw [if_pos hy, if_pos hy]
    · rw [if_neg hy, if_neg hy]
      have hx : x ∈ ys := by
        cases h with
        | head => exact absurd rfl hy
        | tail _ hh => exact hh
      rw [ih hx]

theorem firstIdx_cons (x y : String) (ys : List String) :
    firstIdx x (y :: ys) = if y = x then 0 else firstIdx x ys + 1 := rfl

theorem firstIdx_append_right (x : String) (l1 l2 : List String) (h : x ∉ l1) :
    firstIdx x (l1 ++ l2) = l1.length + firstIdx x l2 := by
  induction l1 with
  | nil => simp
  | cons y ys ih =>
    rw [List.cons_append, firstIdx_cons]
    have hy : ¬ y = x := fun hc => h (hc ▸ List.mem_cons_self y ys)
    rw [if_neg hy]
    have hx : x ∉ ys := fun hc => h (List.mem_cons_of_mem y hc)
    rw [ih hx]
    simp [List.length_cons]
    omega

theorem insertByPriority_perm (t : TaskStep) (l : List TaskStep) :
    (insertByPriority t l).Perm (t :: l) := by
  induction l with
  | nil => exact List.Perm.refl _
  | cons x xs ih =>
    unfold insertByPriority
    by_cases hc : t.priority ≤ x.priority
    · rw [if_pos hc]
    · rw [if_neg hc]
      exact (ih.cons x).trans (List.Perm.swap t x xs)

theorem sortByPriority_perm (l : List TaskStep) : (sortByPriority l).Perm l := by
  induction l with
  | nil => exact List.Perm.refl _
  | cons x xs ih =>
    unfold sortByPriority
    exact (insertByPriority_perm x (sortByPriority xs)).trans (ih.cons x)

theorem orderLoop_spec :
    ∀ (fuel : Nat) (remaining : List TaskStep) (executed : List String),
      remaining.length ≤ fuel →
      ∃ tail, orderLoop fuel executed remaining = executed ++ tail ∧
        tail.Perm (remaining.map TaskStep.id) := by
  intro fuel
  induction fuel with
  | zero =>
    intro remaining executed h
    have hr : remaining = [] := List.length_eq_zero.mp (Nat.le_zero.mp h)
    subst hr
    exact ⟨[], by simp [orderLoop], by simp⟩
  | succ fuel ih =>
    intro remaining executed h
    cases remaining with
    | nil => exact ⟨[], by simp [orderLoop], by simp⟩
    | cons r0 rs =>
      cases hf : (r0 :: rs).filter (depsReady executed) with
      | nil =>
        obtain ⟨tail, heq, hperm⟩ := ih rs (executed ++ [r0.id])
          (by simpa using Nat.le_of_succ_le_succ (by simpa using h))
        refine ⟨r0.id :: tail, ?_, ?_⟩
        · rw [show orderLoop (fuel + 1) executed (r0 :: rs) =
              orderLoop fuel (executed ++ [r0.id]) rs from by simp only [orderLoop, hf]]
          rw [heq]
          simp
        · simpa using hperm.cons r0.id
      | cons u rest =>
        have humem : u ∈ r0 :: rs :=
          List.mem_of_mem_filter (by rw [hf]; exact List.mem_cons_self _ _)
        have hlen : ((r0 :: rs).erase u).length ≤ fuel := by
          rw [List.length_erase_of_mem humem]
          simp only [List.length_cons] at h ⊢
          omega
        obtain ⟨tail, heq, hperm⟩ := ih ((r0 :: rs).erase u) (executed ++ [u.id]) hlen
        refine ⟨u.id :: tail, ?_, ?_⟩
        · rw [show orderLoop (fuel + 1) executed (r0 :: rs) =
              orderLoop fuel (executed ++ [u.id]) ((r0 :: rs).erase u) from by
            simp only [orderLoop, hf]]
          rw [heq]
          simp
        · have hpc : (r0 :: rs).Perm (u :: (r0 :: rs).erase u) := List.perm_cons_erase humem
          exact (hperm.cons u.id).trans ((hpc.map TaskStep.id).symm)

theorem exists_min_rank (rank : String → Nat) :
    ∀ (l : List TaskStep), l ≠ [] → ∃ t ∈ l, ∀ u ∈ l, rank t.id ≤ rank u.id := by
  intro l
  induction l with
  | nil => intro h; exact absurd rfl h
  | cons x xs ih =>
    intro _
    cases xs with
    | nil => exact ⟨x, List.mem_cons_self _ _, by simp⟩
    | cons y ys =>
      obtain ⟨t, ht, hmin⟩ := ih (by simp)
      by_cases hc : rank x.id ≤ rank t.id
      · refine ⟨x, List.mem_cons_self _ _, ?_⟩
        intro u hu
        cases hu with
        | head => exact le_refl _
        | tail _ hh => exact le_trans hc (hmin u hh)
      · refine ⟨t, List.mem_cons_of_mem x ht, ?_⟩
        intro u hu
        cases hu with
        | head => exact Nat.le_of_lt (Nat.lt_of_not_le hc)
        | tail _ hh => exact hmin u hh

theorem orderLoop_topo :
    ∀ (fuel : Nat) (remaining : List TaskStep) (executed : List String)
      (rank : String → Nat),
      remaining.length ≤ fuel →
      (executed ++ remaining.map TaskStep.id).Nodup →
      (∀ t ∈ remaining, ∀ d ∈ t.dependencies,
        d ∈ executed ∨ ∃ u ∈ remaining, u.id = d) →
      (∀ t ∈ remaining, ∀ d ∈ t.dependencies, rank d < rank t.id) →
      ∀ t ∈ remaining, ∀ d ∈ t.dependencies,
        appearsBefore d t.id (orderLoop fuel executed remaining) := by
  intro fuel
  induction fuel with
  | zero =>
    intro remaining executed rank hlen _ _ _ t ht
    have hr : remaining = [] := List.length_eq_zero.mp (Nat.le_zero.mp hlen)
    subst hr
    cases ht
  | succ fuel ih =>
    intro remaining executed rank hlen hnd hclosed hrank t ht d hd
    cases hrem : remaining with
    | nil => subst hrem; cases ht
    | cons r0 rs =>
    subst hrem
    -- some task is ready: a task of minimal rank has all dependencies executed
    obtain ⟨tmin, htmin_mem, htmin⟩ := exists_min_rank rank (r0 :: rs) (by simp)
    have hready : depsReady executed tmin = true := by
      unfold depsReady
      rw [List.all_eq_true]
      intro dep hdep
      rcases hclosed tmin htmin_mem dep hdep with hex | ⟨u, hu, huid⟩
      · exact List.elem_iff.mpr hex
      · exfalso
        have h1 : rank dep < rank tmin.id := hrank tmin htmin_mem dep hdep
        have h2 : rank tmin.id ≤ rank u.id := htmin u hu
        rw [huid] at h2
        omega
    cases hf : (r0 :: rs).filter (depsReady executed) with
    | nil =>
      exfalso
      have : tmin ∈ (r0 :: rs).filter (depsReady executed) :=
        List.mem_filter.mpr ⟨htmin_mem, hready⟩
      rw [hf] at this
      cases this
    | cons u rest =>
      have humem : u ∈ r0 :: rs :=
        List.mem_of_mem_filter (by rw [hf]; exact List.mem_cons_self _ _)
      have huready : depsReady executed u = true :=
        (List.mem_filter.mp (show u ∈ (r0 :: rs).filter (depsReady executed) from by
          rw [hf]; exact List.mem_cons_self _ _)).2
      have hstep : orderLoop (fuel + 1) executed (r0 :: rs) =
          orderLoop fuel (executed ++ [u.id]) ((r0 :: rs).erase u) := by
        simp only [orderLoop, hf]
      rw [hstep]
      have hperm_ids : ((r0 :: rs).map TaskStep.id).Perm
          (u.id :: ((r0 :: rs).erase u).map TaskStep.id) :=
        (List.perm_cons_erase humem).map TaskStep.id
      have hnd' : ((executed ++ [u.id]) ++ ((r0 :: rs).erase u).map TaskStep.id).Nodup := by
        have hpm : (executed ++ (r0 :: rs).map TaskStep.id).Perm
            ((executed ++ [u.id]) ++ ((r0 :: rs).erase u).map TaskStep.id) := by
          have h1 := List.Perm.append_left executed hperm_ids
          rw [List.append_cons executed u.id (((r0 :: rs).erase u).map TaskStep.id)] at h1
          exact h1
        exact hpm.nodup_iff.mp hnd
      have hlen' : ((r0 :: rs).erase u).length ≤ fuel := by
        rw [List.length_erase_of_mem humem]
        simp only [List.length_cons] at hlen ⊢
        omega
      have hclosed' : ∀ t' ∈ (r0 :: rs).erase u, ∀ d' ∈ t'.dependencies,
          d' ∈ executed ++ [u.id] ∨ ∃ v ∈ (r0 :: rs).erase u, v.id = d' := by
        intro t' ht' d' hd'
        rcases hclosed t' (List.mem_of_mem_erase ht') d' hd' with hex | ⟨v, hv, hvid⟩
        · exact Or.inl (List.mem_append_left _ hex)
        · by_cases hvu : v = u
          · subst hvu
            exact Or.inl (List.mem_append_right _ (by simp [← hvid]))
          · exact Or.inr ⟨v, (List.mem_erase_of_ne hvu).mpr hv, hvid⟩
      have hrank' : ∀ t' ∈ (r0 :: rs).erase u, ∀ d' ∈ t'.dependencies,
          rank d' < rank t'.id :=
        fun t' ht' => hrank t' (List.mem_of_mem_erase ht')
      by_cases htu : t = u
      · subst htu
        obtain ⟨tail, hteq, _⟩ :=
          orderLoop_spec fuel ((r0 :: rs).erase t) (executed ++ [t.id]) hlen'
        rw [hteq]
        have hdexec : d ∈ executed := by
          unfold depsReady at huready
          rw [List.all_eq_true] at huready
          exact List.elem_iff.mp (huready d hd)
        have htid_not : t.id ∉ executed := by
          have hin : t.id ∈ (r0 :: rs).map TaskStep.id := List.mem_map_of_mem _ humem
          rcases List.nodup_append.mp hnd with ⟨_, _, hdisj⟩
          intro hcon
          exact hdisj hcon hin
        refine ⟨List.mem_append_left _ (List.mem_append_left _ hdexec),
          List.mem_append_left _ (List.mem_append_right _ (List.mem_singleton.mpr rfl)), ?_⟩
        have h1 : firstIdx d ((executed ++ [t.id]) ++ tail) = firstIdx d executed := by
          rw [firstIdx_append_left d (executed ++ [t.id]) tail
            (List.mem_append_left _ hdexec)]
          rw [firstIdx_append_left d executed [t.id] hdexec]
        have h2 : firstIdx t.id ((executed ++ [t.id]) ++ tail) = executed.length := by
          rw [firstIdx_append_left t.id (executed ++ [t.id]) tail
            (List.mem_append_right _ (List.mem_singleton.mpr rfl))]
          rw [firstIdx_append_right t.id executed [t.id] htid_not]
          simp [firstIdx]
        rw [h1, h2]
        exact firstIdx_lt_length d executed hdexec
      · have ht' : t ∈ (r0 :: rs).erase u := (List.mem_erase_of_ne htu).mpr ht
        exact ih ((r0 :: rs).erase u) (executed ++ [u.id]) rank hlen' hnd' hclosed'
          hrank' t ht' d hd

theorem taskForAgent_id (name : String) (k : Nat) (t : TaskStep)
    (h : taskForAgent name k = some t) : t.id = "T" ++ Nat.repr k := by
  unfold taskForAgent at h
  split_ifs at h <;> simp only [Option.some.injEq] at h <;> rw [← h]

theorem createTasksFold_ids (cfg : List AgentConfig) :
    ∀ (needed : List String) (st : List TaskStep × Nat),
      st.2 = st.1.length + 1 →
      st.1.map TaskStep.id = (List.range st.1.length).map (fun k => "T" ++ Nat.repr (k + 1)) →
      (needed.foldl (createTasksStep cfg) st).1.map TaskStep.id =
        (List.range (needed.foldl (createTasksStep cfg) st).1.length).map
          (fun k => "T" ++ Nat.repr (k + 1)) := by
  intro needed
  induction needed with
  | nil => intro st _ h2; exact h2
  | cons a rest ih =>
    intro st h1 h2
    rw [List.foldl_cons]
    refine ih (createTasksStep cfg st a) ?_ ?_ <;> unfold createTasksStep
    · cases hfind : cfg.find? (fun c => c.name = a) with
      | none => exact h1
      | some c =>
        cases htask : taskForAgent a st.2 with
        | none => exact h1
        | some t => simp [h1]
    · cases hfind : cfg.find? (fun c => c.name = a) with
      | none => exact h2
      | some c =>
        cases htask : taskForAgent a st.2 with
        | none => exact h2
        | some t =>
          dsimp only
          rw [List.map_append, h2, List.length_append]
          have hid : t.id = "T" ++ Nat.repr (st.1.length + 1) := by
            rw [taskForAgent_id a st.2 t htask, h1]
          simp only [List.length_singleton]
          rw [List.range_succ, List.map_append]
          simp [hid]

theorem createTasks_ids (cfg : List AgentConfig) (reqs : List String) :
    (createTasks cfg reqs).map TaskStep.id =
      (List.range (createTasks cfg reqs).length).map (fun k => "T" ++ Nat.repr (k + 1)) :=
  createTasksFold_ids cfg (determineNeededAgents cfg reqs) ([], 1) rfl rfl

theorem createTasks_ids_nodup (cfg : List AgentConfig) (reqs : List String) :
    ((createTasks cfg reqs).map TaskStep.id).Nodup := by
  rw [createTasks_ids]
  refine List.Nodup.map ?_ (List.nodup_range _)
  intro a b hab
  have hd := congrArg String.data hab
  rw [String.data_append, String.data_append] at hd
  have hcan := List.append_cancel_left hd
  have := natRepr_injective (String.ext hcan)
  omega

theorem determineExecutionOrder_spec (tasks : List TaskStep)
    (hnd : (tasks.map TaskStep.id).Nodup) :
    (determineExecutionOrder tasks).Perm (tasks.map TaskStep.id) ∧
    (∀ rank : String → Nat,
      (∀ t ∈ tasks, ∀ d ∈ t.dependencies, ∃ u ∈ tasks, u.id = d) →
      (∀ t ∈ tasks, ∀ d ∈ t.dependencies, rank d < rank t.id) →
      ∀ t ∈ tasks, ∀ d ∈ t.dependencies,
        appearsBefore d t.id (determineExecutionOrder tasks)) := by
  have hsp : (sortByPriority tasks).Perm tasks := sortByPriority_perm tasks
  have hmap : ((sortByPriority tasks).map TaskStep.id).Perm (tasks.map TaskStep.id) :=
    hsp.map _
  constructor
  · obtain ⟨tail, heq, hperm⟩ :=
      orderLoop_spec (sortByPriority tasks).length (sortByPriority tasks) [] (le_refl _)
    unfold determineExecutionOrder
    dsimp only
    rw [heq]
    simpa using hperm.trans hmap
  · intro rank hclosed hrank t ht d hd
    unfold determineExecutionOrder
    dsimp only
    refine orderLoop_topo (sortByPriority tasks).length (sortByPriority tasks) [] rank
      (le_refl _) (by simpa using hmap.nodup_iff.mpr hnd) ?_ ?_ t (hsp.mem_iff.mpr ht) d hd
    · intro t' ht' d' hd'
      obtain ⟨u, hu, huid⟩ := hclosed t' (hsp.mem_iff.mp ht') d' hd'
      exact Or.inr ⟨u, hsp.mem_iff.mpr hu, huid⟩
    · intro t' ht' d' hd'
      exact hrank t' (hsp.mem_iff.mp ht') d' hd'

/-- C1 (amended): for every plan the Planner produces, `executionOrder` is a
permutation of the plan's task ids (same multiset, no duplicates, none
missing); and whenever every declared dependency references a task id present
in the plan and the declared dependency graph is acyclic (witnessed by a rank
function decreasing along dependency edges), every id in a task's
dependencies appears strictly earlier in `executionOrder` than the task's own
id. -/
theorem planner_executionOrder_correct (cfg : List AgentConfig) (instr : String)
    (now : Nat) (iso : String) :
    (createExecutionPlan cfg instr now iso).executionOrder.Perm
      ((createExecutionPlan cfg instr now iso).tasks.map TaskStep.id) ∧
    ((createExecutionPlan cfg instr now iso).tasks.map TaskStep.id).Nodup ∧
    (∀ rank : String → Nat,
      (∀ t ∈ (createExecutionPlan cfg instr now iso).tasks, ∀ d ∈ t.dependencies,
        ∃ u ∈ (createExecutionPlan cfg instr now iso).tasks, u.id = d) →
      (∀ t ∈ (createExecutionPlan cfg instr now iso).tasks, ∀ d ∈ t.dependencies,
        rank d < rank t.id) →
      ∀ t ∈ (createExecutionPlan cfg instr now iso).tasks, ∀ d ∈ t.dependencies,
        appearsBefore d t.id (createExecutionPlan cfg instr now iso).executionOrder) := by
  have hnd := createTasks_ids_nodup cfg (analyzeRequirements instr)
  have h := determineExecutionOrder_spec (createTasks cfg (analyzeRequirements instr)) hnd
  exact ⟨h.1, hnd, h.2⟩

/-- Witness for `planner_executionOrder_correct` on a four-worker registry
and instructions selecting all four workers: the order is a topological
permutation of `[T1, T2, T3, T4]`. -/
theorem planner_executionOrder_correct_witness :
    (createExecutionPlan
        [{ name := "frontend-agent", capabilities := [], defaultPolicy := ⟨none, none, none⟩ },
         { name := "frontend-tests-agent", capabilities := [], defaultPolicy := ⟨none, none, none⟩ },
         { name := "backend-agent", capabilities := [], defaultPolicy := ⟨none, none, none⟩ },
         { name := "backend-tests-agent", capabilities := [], defaultPolicy := ⟨none, none, none⟩ }]
        "build frontend and backend" 0 "t").executionOrder.Perm
      ((createExecutionPlan
        [{ name := "frontend-agent", capabilities := [], defaultPolicy := ⟨none, none, none⟩ },
         { name := "frontend-tests-agent", capabilities := [], defaultPolicy := ⟨none, none, none⟩ },
         { name := "backend-agent", capabilities := [], defaultPolicy := ⟨none, none, none⟩ },
         { name := "backend-tests-agent", capabilities := [], defaultPolicy := ⟨none, none, none⟩ }]
        "build frontend and backend" 0 "t").tasks.map TaskStep.id) ∧
    ∀ t ∈ (createExecutionPlan
        [{ name := "frontend-agent", capabilities := [], defaultPolicy := ⟨none, none, none⟩ },
         { name := "frontend-tests-agent", capabilities := [], defaultPolicy := ⟨none, none, none⟩ },
         { name := "backend-agent", capabilities := [], defaultPolicy := ⟨none, none, none⟩ },
         { name := "backend-tests-agent", capabilities := [], defaultPolicy := ⟨none, none, none⟩ }]
        "build frontend and backend" 0 "t").tasks, ∀ d ∈ t.dependencies,
      appearsBefore d t.id (createExecutionPlan
        [{ name := "frontend-agent", capabilities := [], defaultPolicy := ⟨none, none, none⟩ },
         { name := "frontend-tests-agent", capabilities := [], defaultPolicy := ⟨none, none, none⟩ },
         { name := "backend-agent", capabilities := [], defaultPolicy := ⟨none, none, none⟩ },
         { name := "backend-tests-agent", capabilities := [], defaultPolicy := ⟨none, none, none⟩ }]
        "build frontend and backend" 0 "t").executionOrder :=
  have h := planner_executionOrder_correct
    [{ name := "frontend-agent", capabilities := [], defaultPolicy := ⟨none, none, none⟩ },
     { name := "frontend-tests-agent", capabilities := [], defaultPolicy := ⟨none, none, none⟩ },
     { name := "backend-agent", capabilities := [], defaultPolicy := ⟨none, none, none⟩ },
     { name := "backend-tests-agent", capabilities := [], defaultPolicy := ⟨none, none, none⟩ }]
    "build frontend and backend" 0 "t"
  ⟨h.1, h.2.2 (fun s => if s = "T1" then 0 else if s = "T2" then 1 else if s = "T3" then 0 else 2)
    (by decide) (by decide)⟩

/-- C1 counterexample: with a registry holding only `backend-tests-agent` and
instructions "add api endpoint", the plan's single task `T1` declares the
dangling dependency `T2`; the dependency graph is acyclic (ranked), yet `T2`
does not appear in `executionOrder` before `T1` — it does not appear at all. -/
theorem planner_executionOrder_counterexample :
    (∃ rank : String → Nat,
      ∀ t ∈ (createExecutionPlan
          [{ name := "backend-tests-agent", capabilities := [], defaultPolicy := ⟨none, none, none⟩ }]
          "add api endpoint" 0 "t").tasks, ∀ d ∈ t.dependencies,
        rank d < rank t.id) ∧
    ¬ (∀ t ∈ (createExecutionPlan
          [{ name := "backend-tests-agent", capabilities := [], defaultPolicy := ⟨none, none, none⟩ }]
          "add api endpoint" 0 "t").tasks, ∀ d ∈ t.dependencies,
        appearsBefore d t.id (createExecutionPlan
          [{ name := "backend-tests-agent", capabilities := [], defaultPolicy := ⟨none, none, none⟩ }]
          "add api endpoint" 0 "t").executionOrder) :=
  ⟨⟨fun s => if s = "T2" then 0 else 1, by decide⟩, by decide⟩
